import Mathlib

/-!
Verification of the ATS Resume Matcher (`app.py`) against its
natural-language specification.

The program's text-processing core is embedded shallowly: Python strings
become `List Char`, the regular-expression driven section extraction of
`app.py` (lines 154-182) becomes explicit recursive scanning functions with
the exact semantics of the patterns
`^NAME[^\n]*\n(.*?)(?=\n(?:DELIMS)[^\n]*\n|\Z)` (IGNORECASE, DOTALL,
MULTILINE) and `Overall Match Score:\s*(\d+)%?` (IGNORECASE), and the
Streamlit session-state update (lines 97-118) becomes a pure step function
on an explicit state record.  External effects (the Gemini call, pdf page
extraction, docx extraction) are modelled as `Except`/`Option` valued
inputs.  Matching is ASCII case-insensitive, which covers the concrete
header strings used by the program.
-/

/-- ASCII lower-casing of one character, as applied by `re.IGNORECASE` and
`str.lower()` on the ASCII range. -/
def toLowerCh (c : Char) : Char :=
  if 65 ≤ c.toNat ∧ c.toNat ≤ 90 then Char.ofNat (c.toNat + 32) else c

/-- Case-insensitive prefix test: the pattern `p` matches, character by
character and up to ASCII case, an initial segment of `s`.  This is the
semantics of a `re.escape`d literal at the current position under
`re.IGNORECASE`. -/
def startsCI : List Char → List Char → Bool
  | [], _ => true
  | _ :: _, [] => false
  | p :: ps, c :: cs => (toLowerCh p == toLowerCh c) && startsCI ps cs

/-- Exact (case-sensitive) list prefix test, the semantics of Python
`str.startswith`. -/
def startsWithL : List Char → List Char → Bool
  | [], _ => true
  | _ :: _, [] => false
  | p :: ps, c :: cs => (p == c) && startsWithL ps cs

/-- The six ASCII characters stripped by Python `str.strip()` and matched
by `\s` in an ASCII regex. -/
def isSpacePy (c : Char) : Bool :=
  c == ' ' || c == '\t' || c == '\n' || c == '\r' || c == '\x0b' || c == '\x0c'

/-- ASCII decimal digit, the ASCII semantics of `\d`. -/
def isDigitCh (c : Char) : Bool :=
  48 ≤ c.toNat && c.toNat ≤ 57

/-- Python `str.strip()`: remove leading and trailing whitespace. -/
def strip (l : List Char) : List Char :=
  ((l.dropWhile isSpacePy).reverse.dropWhile isSpacePy).reverse

/-- Drop characters through the first newline; `none` when the list has no
newline.  This is the deterministic semantics of `[^\n]*\n` starting at the
current position. -/
def skipLine : List Char → Option (List Char)
  | [] => none
  | c :: cs => if c = '\n' then some cs else skipLine cs

/-- Join a list of lines with single newline separators.  `unlines` of the
newline-free decomposition of a text reconstructs the text exactly, and it
is also the semantics of Python's `"\n".join`. -/
def unlines : List (List Char) → List Char
  | [] => []
  | [l] => l
  | l :: ls => l ++ '\n' :: unlines ls

/-- Decompose a text into its newline-free lines ( `"a\nb"` becomes
`["a", "b"]`, a trailing newline yields a trailing empty line). -/
def toLines : List Char → List (List Char)
  | [] => [[]]
  | c :: cs =>
    if c = '\n' then [] :: toLines cs
    else
      match toLines cs with
      | [] => [[c]]
      | l :: ls => (c :: l) :: ls

/-- A newline-free character list. -/
def noNl (l : List Char) : Bool := !l.contains '\n'

/-- The declared section names of `app.py` line 154
(`sections_to_extract`). -/
def sections_to_extract : List (List Char) :=
  [("Contact Info").toList, ("Skills").toList, ("Experience").toList,
   ("Education").toList, ("Certifications").toList, ("Achievements").toList,
   ("Others").toList]

/-- The delimiter set of `app.py` line 156: the section names plus the
score-line header. -/
def all_delimiters : List (List Char) :=
  sections_to_extract ++ [("Overall Match Score").toList]

/-- One alternative of the lookahead `\n(?:DELIMS)[^\n]*\n` after its
leading newline: some delimiter matches case-insensitively at the head of
`l` and the rest of that line is terminated by a newline. -/
def isDelimLine (delims : List (List Char)) (l : List Char) : Bool :=
  delims.any (fun d => startsCI d l && (skipLine (l.drop d.length)).isSome)

/-- Scan for the leftmost match of `^NAME[^\n]*\n` under
`re.MULTILINE`/`re.IGNORECASE`: `atStart` records whether the current
position is a line start.  On success, returns the suffix just after the
header line's newline, where the lazy group `(.*?)` begins. -/
def findHeaderAux (name : List Char) : Bool → List Char → Option (List Char)
  | _, [] => none
  | atStart, c :: cs =>
    if atStart ∧ startsCI name (c :: cs) ∧
        (skipLine ((c :: cs).drop name.length)).isSome then
      skipLine ((c :: cs).drop name.length)
    else
      findHeaderAux name (c = '\n') cs

/-- Leftmost header-line match of `^NAME[^\n]*\n` in the full text. -/
def findHeader (name : List Char) (text : List Char) : Option (List Char) :=
  findHeaderAux name true text

/-- The lazy capture `(.*?)(?=\n(?:DELIMS)[^\n]*\n|\Z)`: copy characters
until the earliest position that either ends the text or carries a newline
immediately followed by a delimiter line that is itself terminated by a
newline. -/
def captureFrom (delims : List (List Char)) : List Char → List Char
  | [] => []
  | c :: cs =>
    if c = '\n' ∧ isDelimLine delims cs then []
    else c :: captureFrom delims cs

/-- The per-section extraction of `app.py` lines 161-167: locate the header
line for `name`, lazily capture up to the next delimiter line or the end of
the text, and strip the result.  `none` when the header pattern does not
match anywhere. -/
def extractSection (delims : List (List Char)) (name : List Char)
    (text : List Char) : Option (List Char) :=
  match findHeader name text with
  | none => none
  | some rest => some (strip (captureFrom delims rest))

/-- `content.lower() in ["none", "not found", "n/a"]` of `app.py`
line 168. -/
def isPlaceholder (c : List Char) : Bool :=
  let lc := c.map toLowerCh
  lc == ("none").toList || lc == ("not found").toList || lc == ("n/a").toList

/-- `content.replace("\n", "<br>")` of `app.py` line 170. -/
def replBr : List Char → List Char
  | [] => []
  | c :: cs =>
    if c = '\n' then '<' :: 'b' :: 'r' :: '>' :: replBr cs
    else c :: replBr cs

/-- `f"<i>{content}</i>"` of `app.py` line 173. -/
def italicWrap (c : List Char) : List Char :=
  ("<i>").toList ++ c ++ ("</i>").toList

/-- The extraction loop of `app.py` lines 158-173: walk the declared
section names in order, carrying the `seen_content_blocks` set (here a
list), and collect the `extracted_data_for_display` rows. -/
def buildDisplayAux (text : List Char) :
    List (List Char) → List (List Char) → List (List Char × List Char)
  | [], _ => []
  | name :: rest, seen =>
    match extractSection all_delimiters name text with
    | none => buildDisplayAux text rest seen
    | some content =>
      if content ≠ [] ∧ isPlaceholder content = false ∧ content ∉ seen then
        (name, replBr content) :: buildDisplayAux text rest (content :: seen)
      else if content ≠ [] ∧ isPlaceholder content = true then
        (name, italicWrap content) :: buildDisplayAux text rest seen
      else buildDisplayAux text rest seen

/-- The full section-extraction pass over a response text, starting from an
empty `seen_content_blocks`. -/
def buildDisplay (text : List Char) : List (List Char × List Char) :=
  buildDisplayAux text sections_to_extract []

/-- The literal head of the score pattern `Overall Match Score:\s*(\d+)%?`
of `app.py` line 126. -/
def scoreLabel : List Char := ("Overall Match Score:").toList

/-- Attempt of the score pattern at the current position: the literal label
matches case-insensitively, then `\s*` greedily consumes whitespace
(including newlines), then `(\d+)` requires a nonempty maximal digit run,
which is the captured group.  `%?` and everything after the digits cannot
affect the group. -/
def scoreAt (s : List Char) : Option (List Char) :=
  if startsCI scoreLabel s then
    match ((s.drop scoreLabel.length).dropWhile isSpacePy).takeWhile isDigitCh with
    | [] => none
    | ds => some ds
  else none

/-- `re.search` for the score pattern: leftmost position at which the whole
pattern matches, returning the digit group. -/
def findScore : List Char → Option (List Char)
  | [] => none
  | c :: cs =>
    match scoreAt (c :: cs) with
    | some ds => some ds
    | none => findScore cs

/-- Numeric value of a digit string, as computed by Python `int`. -/
def digitsVal (s : List Char) : Nat :=
  s.foldl (fun a c => a * 10 + (c.toNat - 48)) 0

/-- Python `int(str)` restricted to the strings this program can feed it:
it succeeds exactly on nonempty all-digit strings (on which the real
`int` also succeeds) and fails otherwise, which is the `ValueError` case
guarded by `app.py` line 142. -/
def pyParseInt (s : List Char) : Option Nat :=
  if s.isEmpty = false && s.all isDigitCh then some (digitsVal s) else none

/-- Outcome of the score block of `app.py` lines 126-145: a rendered score,
the `"Could not parse score"` warning of line 143, or the
`"Overall Match Score not found"` warning of line 145. -/
inductive ScoreDisplay where
  | shown : Nat → ScoreDisplay
  | parseFail : List Char → ScoreDisplay
  | missing : ScoreDisplay
deriving DecidableEq

/-- The score block of `app.py` lines 126-145 as a function of the
response text. -/
def scoreDisplay (text : List Char) : ScoreDisplay :=
  match findScore text with
  | some ds =>
    match pyParseInt ds with
    | some n => ScoreDisplay.shown n
    | none => ScoreDisplay.parseFail ds
  | none => ScoreDisplay.missing

/-- The fixed error marker tested by `result_text.startswith(...)` at
`app.py` line 123. -/
def apiErrorMarker : List Char := ("Error during Gemini API call").toList

/-- `analyze_resume_with_gemini` of `app.py` lines 31-67, with the external
`generate_content` call modelled as an `Except`: success returns the
stripped response text, any exception is caught and turned into the fixed
error string built at line 67. -/
def analyze_resume_with_gemini (call : Except (List Char) (List Char)) :
    List Char :=
  match call with
  | Except.ok t => strip t
  | Except.error e => ("Error during Gemini API call: ").toList ++ e

/-- `is_api_error_string` of `app.py` line 123. -/
def is_api_error_string (t : List Char) : Bool :=
  startsWithL apiErrorMarker t

/-- What the result-display block of `app.py` lines 121-182 computes from a
(nonempty) result text: on the API-error marker it shows only the error
(line 147-149) and neither the score extractor nor the section loop runs;
otherwise both run. -/
inductive DisplayOutcome where
  | apiError : DisplayOutcome
  | analysis : ScoreDisplay → List (List Char × List Char) → DisplayOutcome
deriving DecidableEq

/-- The result-display block of `app.py` lines 121-182 as a function of the
stored result text. -/
def renderResult (result_text : List Char) : DisplayOutcome :=
  if is_api_error_string result_text then DisplayOutcome.apiError
  else DisplayOutcome.analysis (scoreDisplay result_text) (buildDisplay result_text)

/-- The session state of `app.py` line 86: `processed`, `result`,
`resume_filename`, `last_jd`. -/
structure AppState where
  processed : Bool
  result : List Char
  resume_filename : List Char
  last_jd : List Char

/-- The change-detection and reset block of `app.py` lines 97-105.
`cur` is `resume_file.name` when a file is uploaded, `none` otherwise;
Python truthiness makes `resume_changed` false for a missing file or an
empty filename.  Returns the updated state and whether the reset branch
was taken. -/
def updateOnChange (st : AppState) (cur : Option (List Char))
    (jd : List Char) : AppState × Bool :=
  let resume_changed :=
    match cur with
    | none => false
    | some n => !(n == []) && !(st.resume_filename == n)
  let jd_changed := !(st.last_jd == jd)
  if resume_changed || jd_changed then
    ({ processed := false, result := [],
       resume_filename :=
         if resume_changed then
           match cur with
           | none => st.resume_filename
           | some n => n
         else st.resume_filename,
       last_jd := jd }, true)
  else (st, false)

/-- The guard of `app.py` line 108 evaluated on the state left by the
change-detection block: the processing pipeline (extraction plus analysis
request) runs only when not yet processed, a file is present and the job
description is nonblank. -/
def wouldProcess (st : AppState) (cur : Option (List Char))
    (jd : List Char) : Bool :=
  !st.processed && cur.isSome && !(strip jd).isEmpty

/-- Exact (case-sensitive) list suffix test, the semantics of Python
`str.endswith`. -/
def endsWithL (suf l : List Char) : Bool :=
  startsWithL suf.reverse l.reverse

/-- The PDF branch of `app.py` line 24: each page's `extract_text()` is
`none` (no extractable text) or a string; pages whose text is falsy
(`none` or empty) are dropped and the rest are joined with newlines. -/
def extractPdf (pages : List (Option (List Char))) : List Char :=
  unlines (pages.filterMap (fun p =>
    match p with
    | none => none
    | some t => if t = [] then none else some t))

/-- `extract_text_from_file` of `app.py` lines 19-29, with the two
third-party extractors modelled as `Except` inputs (exception or value).
Returns the extracted text together with whether the `st.error` warning of
line 28 fired.  A filename of neither handled extension falls through to
`return ""` with no warning. -/
def extract_text_from_file (fname : List Char)
    (pdfPages : Except (List Char) (List (Option (List Char))))
    (docxText : Except (List Char) (List Char)) : List Char × Bool :=
  if endsWithL ((".pdf").toList) fname then
    match pdfPages with
    | Except.ok pages => (extractPdf pages, false)
    | Except.error _ => ([], true)
  else if endsWithL ((".docx").toList) fname then
    match docxText with
    | Except.ok t => (t, false)
    | Except.error _ => ([], true)
  else ([], false)

/-- Claim wording, shared by the stated and the amended reading: the header
search walks the lines in order looking for a line that starts
(case-insensitively) with the section name and is followed by a newline
(i.e. is not the final line), and returns the remaining lines. -/
def specFindHeaderLines (name : List Char) :
    List (List Char) → Option (List (List Char))
  | [] => none
  | [_] => none
  | l :: rest =>
    if startsCI name l then some rest else specFindHeaderLines name rest

/-- Amended claim wording for the capture's stop scan over the lines after
the first captured line: a line terminates the capture exactly when it
starts with a declared delimiter name and is itself followed by a newline
(i.e. is not the final line); the final line can never terminate the
capture and is captured. -/
def specCaptureTail (delims : List (List Char)) :
    List (List Char) → List (List Char)
  | [] => []
  | [l] => [l]
  | l :: rest =>
    if delims.any (fun d => startsCI d l) then []
    else l :: specCaptureTail delims rest

/-- Amended claim reading of the per-section extraction, phrased over the
newline-free line decomposition of the text: find the header line, always
capture the line right after it, then capture further lines up to the
first delimiter line that is followed by a newline (or every remaining
line), rejoin with newlines and strip. -/
def specExtractLines (delims : List (List Char)) (name : List Char)
    (ls : List (List Char)) : Option (List Char) :=
  match specFindHeaderLines name ls with
  | none => none
  | some [] => none
  | some (m :: ms) => some (strip (unlines (m :: specCaptureTail delims ms)))

/-- The claim's stated stop scan: the capture ends at the next line -
including the line immediately after the header - that starts with any
other declared delimiter name, with no requirement that this delimiter
line be followed by a newline. -/
def claimCaptureLines (delims : List (List Char)) :
    List (List Char) → List (List Char)
  | [] => []
  | l :: rest =>
    if delims.any (fun d => startsCI d l) then []
    else l :: claimCaptureLines delims rest

/-- The claim C2 as literally stated, phrased over the line decomposition:
capture all lines after the header line up to the next line starting with
any other declared delimiter (the section's own name removed from the
delimiter set), or to the end of the text. -/
def claimExtractLines (delims : List (List Char)) (name : List Char)
    (ls : List (List Char)) : Option (List Char) :=
  match specFindHeaderLines name ls with
  | none => none
  | some rest =>
    some (strip (unlines (claimCaptureLines (delims.filter (fun d => d != name)) rest)))

/-- Claim C7 wording: the per-page extracted texts, in page order, with
pages yielding no extractable text (a missing or empty extraction result)
skipped. -/
def specPdfTexts : List (Option (List Char)) → List (List Char)
  | [] => []
  | none :: ps => specPdfTexts ps
  | some t :: ps => if t = [] then specPdfTexts ps else t :: specPdfTexts ps

/-- Claim C4 wording, success side: the text contains a line matching
`Overall Match Score: <digits>%?` case-insensitively - a line boundary or
text start, the label up to case, optional whitespace, a nonempty digit
group, an optional percent sign, then a line boundary or text end. -/
def lineScoreOccurs (text : List Char) : Prop :=
  ∃ pre lab ws ds pct post,
    text = pre ++ lab ++ ws ++ ds ++ pct ++ post ∧
    (pre = [] ∨ ∃ q, pre = q ++ ['\n']) ∧
    lab.map toLowerCh = scoreLabel.map toLowerCh ∧
    (∀ c ∈ ws, isSpacePy c = true) ∧
    ds ≠ [] ∧ (∀ c ∈ ds, isDigitCh c = true) ∧
    (pct = [] ∨ pct = ['%']) ∧
    (post = [] ∨ ∃ q, post = '\n' :: q)

/-- An occurrence of the score pattern anywhere in the text (what
`re.search` actually looks for, since the pattern carries no anchors):
the label up to case, optional whitespace, then at least one digit. -/
def scoreSubstringOccurs (text : List Char) : Prop :=
  ∃ pre lab ws ds rest,
    text = pre ++ lab ++ ws ++ ds ++ rest ∧
    lab.map toLowerCh = scoreLabel.map toLowerCh ∧
    (∀ c ∈ ws, isSpacePy c = true) ∧
    ds ≠ [] ∧ (∀ c ∈ ds, isDigitCh c = true)

theorem charOfNat_toNat {n : Nat} (h1 : 97 ≤ n) (h2 : n ≤ 122) :
    (Char.ofNat n).toNat = n := by
  have hv : n.isValidChar := Or.inl (by omega)
  simp [Char.ofNat, hv, Char.ofNatAux, Char.toNat, UInt32.toNat,
    BitVec.toNat_ofNatLt]

theorem toLowerCh_eq_nl {c : Char} : toLowerCh c = '\n' ↔ c = '\n' := by
  constructor
  · intro h
    unfold toLowerCh at h
    split at h
    · exfalso
      rename_i hr
      have h2 : (Char.ofNat (c.toNat + 32)).toNat = c.toNat + 32 :=
        charOfNat_toNat (by omega) (by omega)
      have h3 := congrArg Char.toNat h
      rw [h2] at h3
      have h4 : ('\n').toNat = 10 := by decide
      omega
    · exact h
  · intro h
    subst h
    decide

theorem noNl_iff {l : List Char} : noNl l = true ↔ '\n' ∉ l := by
  simp [noNl, List.contains, List.elem_iff]

theorem noNl_cons {c : Char} {l : List Char} :
    noNl (c :: l) = true ↔ c ≠ '\n' ∧ noNl l = true := by
  simp only [noNl_iff, List.mem_cons]
  constructor
  · intro h
    exact ⟨fun hc => h (Or.inl hc.symm), fun hm => h (Or.inr hm)⟩
  · intro h hm
    rcases hm with hc | hm
    · exact h.1 hc.symm
    · exact h.2 hm

theorem noNl_drop {l : List Char} (n : Nat) (h : noNl l = true) :
    noNl (l.drop n) = true := by
  rw [noNl_iff] at h ⊢
  intro hm
  exact h (List.mem_of_mem_drop hm)

theorem startsCI_length {p s : List Char} (h : startsCI p s = true) :
    p.length ≤ s.length := by
  induction p generalizing s with
  | nil => simp
  | cons a ps ih =>
    cases s with
    | nil => simp [startsCI] at h
    | cons c cs =>
      simp only [startsCI, Bool.and_eq_true] at h
      simpa [Nat.succ_le_succ_iff] using ih h.2

theorem startsCI_nil_right {p : List Char} (h : p ≠ []) :
    startsCI p [] = false := by
  cases p with
  | nil => exact absurd rfl h
  | cons a ps => rfl

theorem startsCI_append_nl {p l r : List Char} (hp : noNl p = true) :
    startsCI p (l ++ '\n' :: r) = startsCI p l := by
  induction p generalizing l with
  | nil => rfl
  | cons a ps ih =>
    rcases noNl_cons.mp hp with ⟨ha, hps⟩
    cases l with
    | nil =>
      simp only [List.nil_append, startsCI]
      have : toLowerCh a ≠ toLowerCh '\n' := by
        intro h
        exact ha (toLowerCh_eq_nl.mp (by simpa using h))
      simp [beq_eq_false_iff_ne, this]
    | cons c cs =>
      simp only [List.cons_append, startsCI, List.append_eq, ih hps]

theorem skipLine_append_nl {l r : List Char} (h : noNl l = true) :
    skipLine (l ++ '\n' :: r) = some r := by
  induction l with
  | nil => simp [skipLine]
  | cons c cs ih =>
    rcases noNl_cons.mp h with ⟨hc, hcs⟩
    simp [skipLine, hc, ih hcs]

theorem skipLine_of_noNl {l : List Char} (h : noNl l = true) :
    skipLine l = none := by
  induction l with
  | nil => rfl
  | cons c cs ih =>
    rcases noNl_cons.mp h with ⟨hc, hcs⟩
    simp [skipLine, hc, ih hcs]

theorem drop_append_of_le {l r : List Char} {n : Nat} (h : n ≤ l.length) :
    (l ++ r).drop n = l.drop n ++ r := by
  rw [List.drop_append_eq_append_drop]
  have : n - l.length = 0 := by omega
  rw [this, List.drop_zero]

theorem findHeaderAux_of_noNl {name t : List Char} (ht : noNl t = true) :
    ∀ b, findHeaderAux name b t = none := by
  induction t with
  | nil => intro b; rfl
  | cons c cs ih =>
    intro b
    rcases noNl_cons.mp ht with ⟨hc, hcs⟩
    have hsl : skipLine ((c :: cs).drop name.length) = none :=
      skipLine_of_noNl (noNl_drop _ ht)
    simp only [findHeaderAux]
    rw [if_neg]
    · exact ih hcs _
    · rintro ⟨-, -, habs⟩
      rw [hsl] at habs
      simp at habs

theorem findHeaderAux_false_append {name l r : List Char} (hl : noNl l = true) :
    findHeaderAux name false (l ++ '\n' :: r) = findHeaderAux name true r := by
  induction l with
  | nil =>
    simp only [List.nil_append, findHeaderAux]
    rw [if_neg]
    · simp
    · rintro ⟨habs, -, -⟩
      simp at habs
  | cons c cs ih =>
    rcases noNl_cons.mp hl with ⟨hc, hcs⟩
    simp only [List.cons_append, findHeaderAux]
    rw [if_neg]
    · simpa [hc] using ih hcs
    · rintro ⟨habs, -, -⟩
      simp at habs

theorem findHeaderAux_true_append {name l r : List Char} (hname : noNl name = true)
    (hne : name ≠ []) (hl : noNl l = true) :
    findHeaderAux name true (l ++ '\n' :: r) =
      if startsCI name l = true then some r else findHeaderAux name true r := by
  by_cases hs : startsCI name l = true
  · rw [if_pos hs]
    cases l with
    | nil =>
      rw [startsCI_nil_right hne] at hs
      simp at hs
    | cons c cs =>
      have hlen : name.length ≤ (c :: cs).length := startsCI_length hs
      have hsci : startsCI name (c :: (cs ++ '\n' :: r)) = true := by
        have he : c :: (cs ++ '\n' :: r) = (c :: cs) ++ '\n' :: r := rfl
        rw [he, startsCI_append_nl hname]
        exact hs
      have hskip : skipLine ((c :: (cs ++ '\n' :: r)).drop name.length) = some r := by
        have he : c :: (cs ++ '\n' :: r) = (c :: cs) ++ '\n' :: r := rfl
        rw [he, drop_append_of_le hlen, skipLine_append_nl (noNl_drop _ hl)]
      simp only [List.cons_append, List.append_eq, findHeaderAux]
      split
      · exact hskip
      · rename_i hcond
        simp [hsci, hskip] at hcond
  · rw [if_neg hs]
    cases l with
    | nil =>
      have hsci : startsCI name ('\n' :: r) = false := by
        have he : ('\n' :: r : List Char) = [] ++ '\n' :: r := rfl
        rw [he, startsCI_append_nl hname, startsCI_nil_right hne]
      simp only [List.nil_append, findHeaderAux]
      split
      · rename_i hcond
        rw [hsci] at hcond
        simp at hcond
      · simp
    | cons c cs =>
      rcases noNl_cons.mp hl with ⟨hc, hcs⟩
      have hsci : startsCI name (c :: (cs ++ '\n' :: r)) = false := by
        have he : c :: (cs ++ '\n' :: r) = (c :: cs) ++ '\n' :: r := rfl
        rw [he, startsCI_append_nl hname]
        exact Bool.eq_false_iff.mpr hs
      simp only [List.cons_append, List.append_eq, findHeaderAux]
      split
      · rename_i hcond
        rw [hsci] at hcond
        simp at hcond
      · simpa [hc] using findHeaderAux_false_append hcs

theorem unlines_cons_cons (l x : List Char) (xs : List (List Char)) :
    unlines (l :: x :: xs) = l ++ '\n' :: unlines (x :: xs) := rfl

theorem unlines_head_cons (c : Char) (l : List Char) (ls : List (List Char)) :
    unlines ((c :: l) :: ls) = c :: unlines (l :: ls) := by
  cases ls with
  | nil => rfl
  | cons x xs => rfl

theorem toLines_ne_nil (t : List Char) : toLines t ≠ [] := by
  induction t with
  | nil => simp [toLines]
  | cons c cs ih =>
    simp only [toLines]
    split
    · simp
    · split <;> simp

theorem noNl_mem_toLines {t : List Char} : ∀ l ∈ toLines t, noNl l = true := by
  induction t with
  | nil =>
    intro l hl
    simp only [toLines, List.mem_singleton] at hl
    subst hl
    rfl
  | cons c cs ih =>
    intro l hl
    simp only [toLines] at hl
    split at hl
    · rcases List.mem_cons.mp hl with h | h
      · subst h; rfl
      · exact ih l h
    · rename_i hc
      split at hl
      · rename_i habs
        exact absurd habs (toLines_ne_nil cs)
      · rename_i x xs hx
        rcases List.mem_cons.mp hl with h | h
        · subst h
          have hx1 : noNl x = true := ih x (by rw [hx]; exact List.mem_cons_self _ _)
          exact noNl_cons.mpr ⟨hc, hx1⟩
        · exact ih l (by rw [hx]; exact List.mem_cons_of_mem _ h)

theorem unlines_toLines (t : List Char) : unlines (toLines t) = t := by
  induction t with
  | nil => rfl
  | cons c cs ih =>
    simp only [toLines]
    split
    · rename_i hc
      cases hx : toLines cs with
      | nil => exact absurd hx (toLines_ne_nil cs)
      | cons x xs =>
        rw [hx] at ih
        rw [unlines_cons_cons, ih, hc]
        rfl
    · rename_i hc
      cases hx : toLines cs with
      | nil => exact absurd hx (toLines_ne_nil cs)
      | cons x xs =>
        rw [hx] at ih
        rw [unlines_head_cons, ih]

theorem captureFrom_of_noNl {delims : List (List Char)} {l : List Char}
    (h : noNl l = true) : captureFrom delims l = l := by
  induction l with
  | nil => rfl
  | cons c cs ih =>
    rcases noNl_cons.mp h with ⟨hc, hcs⟩
    simp only [captureFrom]
    rw [if_neg]
    · rw [ih hcs]
    · rintro ⟨habs, -⟩
      exact hc habs

theorem captureFrom_append_noNl {delims : List (List Char)} {m s : List Char}
    (h : noNl m = true) :
    captureFrom delims (m ++ s) = m ++ captureFrom delims s := by
  induction m with
  | nil => rfl
  | cons c cs ih =>
    rcases noNl_cons.mp h with ⟨hc, hcs⟩
    simp only [List.cons_append, List.append_eq, captureFrom]
    rw [if_neg]
    · rw [ih hcs]
    · rintro ⟨habs, -⟩
      exact hc habs

theorem isDelimLine_of_noNl {delims : List (List Char)} {l : List Char}
    (h : noNl l = true) : isDelimLine delims l = false := by
  rw [Bool.eq_false_iff]
  intro habs
  simp only [isDelimLine, List.any_eq_true, Bool.and_eq_true] at habs
  rcases habs with ⟨d, -, -, h2⟩
  rw [skipLine_of_noNl (noNl_drop _ h)] at h2
  simp at h2

theorem isDelimLine_unlines_cons {delims : List (List Char)} {m x : List Char}
    {xs : List (List Char)} (hd : ∀ d ∈ delims, noNl d = true)
    (hm : noNl m = true) :
    isDelimLine delims (unlines (m :: x :: xs)) =
      delims.any (fun d => startsCI d m) := by
  rw [unlines_cons_cons, Bool.eq_iff_iff]
  simp only [isDelimLine, List.any_eq_true, Bool.and_eq_true]
  constructor
  · rintro ⟨d, hdm, hsci, -⟩
    exact ⟨d, hdm, by rwa [startsCI_append_nl (hd d hdm)] at hsci⟩
  · rintro ⟨d, hdm, hsci⟩
    refine ⟨d, hdm, ?_, ?_⟩
    · rwa [startsCI_append_nl (hd d hdm)]
    · rw [drop_append_of_le (startsCI_length hsci),
        skipLine_append_nl (noNl_drop _ hm)]
      rfl

theorem captureFrom_unlines {delims : List (List Char)}
    (hd : ∀ d ∈ delims, noNl d = true) :
    ∀ (ms : List (List Char)) (m : List Char), noNl m = true →
      (∀ l ∈ ms, noNl l = true) →
      captureFrom delims (unlines (m :: ms)) =
        unlines (m :: specCaptureTail delims ms) := by
  intro ms
  induction ms with
  | nil =>
    intro m hm _
    exact captureFrom_of_noNl hm
  | cons x xs ih =>
    intro m hm hms
    have hx : noNl x = true := hms x (List.mem_cons_self _ _)
    have hxs : ∀ l ∈ xs, noNl l = true := fun l hl => hms l (List.mem_cons_of_mem _ hl)
    rw [unlines_cons_cons, captureFrom_append_noNl hm]
    cases xs with
    | nil =>
      have hno : isDelimLine delims x = false := isDelimLine_of_noNl hx
      rw [show unlines [x] = x from rfl]
      simp only [captureFrom]
      rw [if_neg]
      · rw [captureFrom_of_noNl hx]
        rfl
      · rintro ⟨-, habs⟩
        rw [hno] at habs
        simp at habs
    | cons y ys =>
      have hdl : isDelimLine delims (unlines (x :: y :: ys)) =
          delims.any (fun d => startsCI d x) :=
        isDelimLine_unlines_cons hd hx
      by_cases hstop : delims.any (fun d => startsCI d x) = true
      · simp only [captureFrom]
        rw [if_pos ⟨by trivial, by rw [hdl]; exact hstop⟩]
        have : specCaptureTail delims (x :: y :: ys) = [] := by
          simp only [specCaptureTail]
          rw [if_pos hstop]
        rw [this]
        simp [unlines]
      · simp only [captureFrom]
        rw [if_neg]
        · rw [ih x hx hxs]
          have : specCaptureTail delims (x :: y :: ys) =
              x :: specCaptureTail delims (y :: ys) := by
            simp only [specCaptureTail]
            rw [if_neg hstop]
          rw [this, unlines_cons_cons]
        · rintro ⟨-, habs⟩
          rw [hdl] at habs
          exact hstop habs

theorem specFindHeaderLines_ne_nil {name : List Char} {ls rest : List (List Char)}
    (h : specFindHeaderLines name ls = some rest) : rest ≠ [] := by
  induction ls with
  | nil => simp [specFindHeaderLines] at h
  | cons l ls ih =>
    cases ls with
    | nil => simp [specFindHeaderLines] at h
    | cons x xs =>
      simp only [specFindHeaderLines] at h
      split at h
      · injection h with h2
        subst h2
        simp
      · exact ih h

theorem specFindHeaderLines_mem {name : List Char} {ls rest : List (List Char)}
    (h : specFindHeaderLines name ls = some rest) : ∀ l ∈ rest, l ∈ ls := by
  induction ls with
  | nil => simp [specFindHeaderLines] at h
  | cons l ls ih =>
    cases ls with
    | nil => simp [specFindHeaderLines] at h
    | cons x xs =>
      simp only [specFindHeaderLines] at h
      split at h
      · injection h with h2
        subst h2
        intro a ha
        exact List.mem_cons_of_mem _ ha
      · intro a ha
        exact List.mem_cons_of_mem _ (ih h a ha)

theorem findHeaderAux_unlines {name : List Char} (hname : noNl name = true)
    (hne : name ≠ []) :
    ∀ ls : List (List Char), (∀ l ∈ ls, noNl l = true) →
      findHeaderAux name true (unlines ls) =
        (specFindHeaderLines name ls).map unlines := by
  intro ls
  induction ls with
  | nil =>
    intro _
    rfl
  | cons l ls ih =>
    intro hmem
    have hl : noNl l = true := hmem l (List.mem_cons_self _ _)
    have hls : ∀ a ∈ ls, noNl a = true := fun a ha => hmem a (List.mem_cons_of_mem _ ha)
    cases ls with
    | nil =>
      rw [show unlines [l] = l from rfl, specFindHeaderLines]
      rw [findHeaderAux_of_noNl hl]
      rfl
    | cons x xs =>
      rw [unlines_cons_cons, findHeaderAux_true_append hname hne hl]
      by_cases hs : startsCI name l = true
      · rw [if_pos hs]
        simp only [specFindHeaderLines]
        rw [if_pos hs]
        rfl
      · rw [if_neg hs, ih hls]
        simp only [specFindHeaderLines]
        rw [if_neg hs]

theorem extractSection_eq_specLines {delims : List (List Char)}
    {name : List Char} (hname : noNl name = true) (hne : name ≠ [])
    (hd : ∀ d ∈ delims, noNl d = true) (t : List Char) :
    extractSection delims name t = specExtractLines delims name (toLines t) := by
  have hls : ∀ l ∈ toLines t, noNl l = true := noNl_mem_toLines
  have ht : t = unlines (toLines t) := (unlines_toLines t).symm
  have key : findHeaderAux name true t =
      (specFindHeaderLines name (toLines t)).map unlines := by
    conv_lhs => rw [ht]
    exact findHeaderAux_unlines hname hne _ hls
  rw [extractSection, findHeader, key]
  cases h : specFindHeaderLines name (toLines t) with
  | none => simp [specExtractLines, h]
  | some rest =>
    cases rest with
    | nil => exact absurd rfl (specFindHeaderLines_ne_nil h)
    | cons m ms =>
      have hmem : ∀ l ∈ m :: ms, noNl l = true :=
        fun l hl => hls l (specFindHeaderLines_mem h l hl)
      have hm : noNl m = true := hmem m (List.mem_cons_self _ _)
      have hms : ∀ l ∈ ms, noNl l = true :=
        fun l hl => hmem l (List.mem_cons_of_mem _ hl)
      simp only [Option.map, specExtractLines]
      rw [captureFrom_unlines hd ms m hm hms, h]

theorem buildDisplayAux_cons_none {text n : List Char}
    {rest seen : List (List Char)}
    (hm : extractSection all_delimiters n text = none) :
    buildDisplayAux text (n :: rest) seen = buildDisplayAux text rest seen := by
  simp [buildDisplayAux, hm]

theorem buildDisplayAux_cons_add {text n c : List Char}
    {rest seen : List (List Char)}
    (hm : extractSection all_delimiters n text = some c) (h1 : c ≠ [])
    (h2 : isPlaceholder c = false) (h3 : c ∉ seen) :
    buildDisplayAux text (n :: rest) seen =
      (n, replBr c) :: buildDisplayAux text rest (c :: seen) := by
  simp [buildDisplayAux, hm, h1, h2, h3]

theorem buildDisplayAux_cons_italic {text n c : List Char}
    {rest seen : List (List Char)}
    (hm : extractSection all_delimiters n text = some c) (h1 : c ≠ [])
    (h2 : isPlaceholder c = true) :
    buildDisplayAux text (n :: rest) seen =
      (n, italicWrap c) :: buildDisplayAux text rest seen := by
  simp [buildDisplayAux, hm, h1, h2]

theorem buildDisplayAux_cons_skip {text n c : List Char}
    {rest seen : List (List Char)}
    (hm : extractSection all_delimiters n text = some c)
    (h : c = [] ∨ (isPlaceholder c = false ∧ c ∈ seen)) :
    buildDisplayAux text (n :: rest) seen = buildDisplayAux text rest seen := by
  rcases h with h1 | ⟨h2, h3⟩
  · subst h1
    simp [buildDisplayAux, hm]
  · simp [buildDisplayAux, hm, h2, h3]

theorem buildDisplayAux_keys_sublist (text : List Char) :
    ∀ (names seen : List (List Char)),
      List.Sublist ((buildDisplayAux text names seen).map Prod.fst) names := by
  intro names
  induction names with
  | nil =>
    intro seen
    simp [buildDisplayAux]
  | cons n rest ih =>
    intro seen
    cases hm : extractSection all_delimiters n text with
    | none =>
      rw [buildDisplayAux_cons_none hm]
      exact (ih seen).cons n
    | some content =>
      by_cases h1 : content = []
      · rw [buildDisplayAux_cons_skip hm (Or.inl h1)]
        exact (ih seen).cons n
      · by_cases h2 : isPlaceholder content = true
        · rw [buildDisplayAux_cons_italic hm h1 h2, List.map_cons]
          exact (ih seen).cons₂ n
        · have h2f : isPlaceholder content = false := by simpa using h2
          by_cases h3 : content ∈ seen
          · rw [buildDisplayAux_cons_skip hm (Or.inr ⟨h2f, h3⟩)]
            exact (ih seen).cons n
          · rw [buildDisplayAux_cons_add hm h1 h2f h3, List.map_cons]
            exact (ih (content :: seen)).cons₂ n

theorem mem_buildDisplayAux {text n v : List Char} :
    ∀ {names seen : List (List Char)}, (n, v) ∈ buildDisplayAux text names seen →
      n ∈ names ∧ ∃ c, extractSection all_delimiters n text = some c ∧ c ≠ [] ∧
        ((isPlaceholder c = true ∧ v = italicWrap c) ∨
         (isPlaceholder c = false ∧ v = replBr c)) := by
  intro names
  induction names with
  | nil =>
    intro seen h
    simp [buildDisplayAux] at h
  | cons m rest ih =>
    intro seen h
    cases hm : extractSection all_delimiters m text with
    | none =>
      rw [buildDisplayAux_cons_none hm] at h
      rcases ih h with ⟨ha, hb⟩
      exact ⟨List.mem_cons_of_mem _ ha, hb⟩
    | some content =>
      by_cases h1 : content = []
      · rw [buildDisplayAux_cons_skip hm (Or.inl h1)] at h
        rcases ih h with ⟨ha, hb⟩
        exact ⟨List.mem_cons_of_mem _ ha, hb⟩
      · by_cases h2 : isPlaceholder content = true
        · rw [buildDisplayAux_cons_italic hm h1 h2] at h
          rcases List.mem_cons.mp h with heq | hmem
          · injection heq with hn hv
            subst hn
            exact ⟨List.mem_cons_self _ _, content, hm, h1, Or.inl ⟨h2, hv⟩⟩
          · rcases ih hmem with ⟨ha, hb⟩
            exact ⟨List.mem_cons_of_mem _ ha, hb⟩
        · have h2f : isPlaceholder content = false := by simpa using h2
          by_cases h3 : content ∈ seen
          · rw [buildDisplayAux_cons_skip hm (Or.inr ⟨h2f, h3⟩)] at h
            rcases ih h with ⟨ha, hb⟩
            exact ⟨List.mem_cons_of_mem _ ha, hb⟩
          · rw [buildDisplayAux_cons_add hm h1 h2f h3] at h
            rcases List.mem_cons.mp h with heq | hmem
            · injection heq with hn hv
              subst hn
              exact ⟨List.mem_cons_self _ _, content, hm, h1, Or.inr ⟨h2f, hv⟩⟩
            · rcases ih hmem with ⟨ha, hb⟩
              exact ⟨List.mem_cons_of_mem _ ha, hb⟩

theorem buildDisplayAux_blocked {text n c : List Char}
    (hx : extractSection all_delimiters n text = some c) (_hc : c ≠ [])
    (hp : isPlaceholder c = false) :
    ∀ (names seen : List (List Char)), c ∈ seen →
      ∀ v, (n, v) ∉ buildDisplayAux text names seen := by
  intro names
  induction names with
  | nil =>
    intro seen _ v h
    simp [buildDisplayAux] at h
  | cons m rest ih =>
    intro seen hseen v h
    cases hm : extractSection all_delimiters m text with
    | none =>
      rw [buildDisplayAux_cons_none hm] at h
      exact ih seen hseen v h
    | some content =>
      by_cases h1 : content = []
      · rw [buildDisplayAux_cons_skip hm (Or.inl h1)] at h
        exact ih seen hseen v h
      · by_cases h2 : isPlaceholder content = true
        · rw [buildDisplayAux_cons_italic hm h1 h2] at h
          rcases List.mem_cons.mp h with heq | hmem
          · injection heq with hn hv
            subst hn
            rw [hx] at hm
            injection hm with hcm
            rw [hcm] at hp
            rw [hp] at h2
            cases h2
          · exact ih seen hseen v hmem
        · have h2f : isPlaceholder content = false := by simpa using h2
          by_cases h3 : content ∈ seen
          · rw [buildDisplayAux_cons_skip hm (Or.inr ⟨h2f, h3⟩)] at h
            exact ih seen hseen v h
          · rw [buildDisplayAux_cons_add hm h1 h2f h3] at h
            rcases List.mem_cons.mp h with heq | hmem
            · injection heq with hn hv
              subst hn
              rw [hx] at hm
              injection hm with hcm
              rw [← hcm] at h3
              exact h3 hseen
            · exact ih (content :: seen) (List.mem_cons_of_mem _ hseen) v hmem

theorem buildDisplayAux_dup_blocked {text n c : List Char}
    (hx : extractSection all_delimiters n text = some c) (hc : c ≠ [])
    (hp : isPlaceholder c = false) :
    ∀ (names₁ names₂ seen : List (List Char)), n ∉ names₁ →
      ((∃ m ∈ names₁, extractSection all_delimiters m text = some c) ∨ c ∈ seen) →
      ∀ v, (n, v) ∉ buildDisplayAux text (names₁ ++ n :: names₂) seen := by
  intro names₁
  induction names₁ with
  | nil =>
    intro names₂ seen _ hdisj v
    rcases hdisj with ⟨m, hm, -⟩ | hseen
    · simp at hm
    · exact buildDisplayAux_blocked hx hc hp _ seen hseen v
  | cons m₀ names₁ ih =>
    intro names₂ seen hnot hdisj v h
    have hne : n ≠ m₀ := fun he => hnot (he ▸ List.mem_cons_self _ _)
    have hnot1 : n ∉ names₁ := fun he => hnot (List.mem_cons_of_mem _ he)
    rw [List.cons_append] at h
    cases hm : extractSection all_delimiters m₀ text with
    | none =>
      rw [buildDisplayAux_cons_none hm] at h
      refine ih names₂ seen hnot1 ?_ v h
      rcases hdisj with ⟨m, hmm, hme⟩ | hs
      · rcases List.mem_cons.mp hmm with rfl | hmm2
        · rw [hm] at hme
          cases hme
        · exact Or.inl ⟨m, hmm2, hme⟩
      · exact Or.inr hs
    | some content =>
      by_cases h1 : content = []
      · rw [buildDisplayAux_cons_skip hm (Or.inl h1)] at h
        refine ih names₂ seen hnot1 ?_ v h
        rcases hdisj with ⟨m, hmm, hme⟩ | hs
        · rcases List.mem_cons.mp hmm with rfl | hmm2
          · rw [hm] at hme
            injection hme with hce
            rw [← hce] at hc
            exact absurd h1 hc
          · exact Or.inl ⟨m, hmm2, hme⟩
        · exact Or.inr hs
      · by_cases h2 : isPlaceholder content = true
        · rw [buildDisplayAux_cons_italic hm h1 h2] at h
          rcases List.mem_cons.mp h with heq | hmem
          · injection heq with hn hv
            exact hne hn
          · refine ih names₂ seen hnot1 ?_ v hmem
            rcases hdisj with ⟨m, hmm, hme⟩ | hs
            · rcases List.mem_cons.mp hmm with rfl | hmm2
              · rw [hm] at hme
                injection hme with hce
                rw [hce] at h2
                rw [hp] at h2
                cases h2
              · exact Or.inl ⟨m, hmm2, hme⟩
            · exact Or.inr hs
        · have h2f : isPlaceholder content = false := by simpa using h2
          by_cases h3 : content ∈ seen
          · rw [buildDisplayAux_cons_skip hm (Or.inr ⟨h2f, h3⟩)] at h
            refine ih names₂ seen hnot1 ?_ v h
            rcases hdisj with ⟨m, hmm, hme⟩ | hs
            · rcases List.mem_cons.mp hmm with rfl | hmm2
              · rw [hm] at hme
                injection hme with hce
                rw [hce] at h3
                exact Or.inr h3
              · exact Or.inl ⟨m, hmm2, hme⟩
            · exact Or.inr hs
          · rw [buildDisplayAux_cons_add hm h1 h2f h3] at h
            rcases List.mem_cons.mp h with heq | hmem
            · injection heq with hn hv
              exact hne hn
            · refine ih names₂ (content :: seen) hnot1 ?_ v hmem
              rcases hdisj with ⟨m, hmm, hme⟩ | hs
              · rcases List.mem_cons.mp hmm with rfl | hmm2
                · rw [hm] at hme
                  injection hme with hce
                  rw [hce]
                  exact Or.inr (List.mem_cons_self _ _)
                · exact Or.inl ⟨m, hmm2, hme⟩
              · exact Or.inr (List.mem_cons_of_mem _ hs)

theorem buildDisplayAux_first_mem {text n c : List Char}
    (hx : extractSection all_delimiters n text = some c) (hc : c ≠ [])
    (hp : isPlaceholder c = false) :
    ∀ (names₁ names₂ seen : List (List Char)),
      (∀ m ∈ names₁, extractSection all_delimiters m text ≠ some c) →
      c ∉ seen →
      (n, replBr c) ∈ buildDisplayAux text (names₁ ++ n :: names₂) seen := by
  intro names₁
  induction names₁ with
  | nil =>
    intro names₂ seen _ hns
    rw [List.nil_append, buildDisplayAux_cons_add hx hc hp hns]
    exact List.mem_cons_self _ _
  | cons m₀ names₁ ih =>
    intro names₂ seen hnone hns
    have hnone1 : ∀ m ∈ names₁, extractSection all_delimiters m text ≠ some c :=
      fun m hmm => hnone m (List.mem_cons_of_mem _ hmm)
    rw [List.cons_append]
    cases hm : extractSection all_delimiters m₀ text with
    | none =>
      rw [buildDisplayAux_cons_none hm]
      exact ih names₂ seen hnone1 hns
    | some content =>
      have hcc : content ≠ c := by
        intro he
        exact hnone m₀ (List.mem_cons_self _ _) (he ▸ hm)
      by_cases h1 : content = []
      · rw [buildDisplayAux_cons_skip hm (Or.inl h1)]
        exact ih names₂ seen hnone1 hns
      · by_cases h2 : isPlaceholder content = true
        · rw [buildDisplayAux_cons_italic hm h1 h2]
          exact List.mem_cons_of_mem _ (ih names₂ seen hnone1 hns)
        · have h2f : isPlaceholder content = false := by simpa using h2
          by_cases h3 : content ∈ seen
          · rw [buildDisplayAux_cons_skip hm (Or.inr ⟨h2f, h3⟩)]
            exact ih names₂ seen hnone1 hns
          · rw [buildDisplayAux_cons_add hm h1 h2f h3]
            refine List.mem_cons_of_mem _ (ih names₂ (content :: seen) hnone1 ?_)
            intro hcs
            rcases List.mem_cons.mp hcs with hce | hcs2
            · exact hcc hce.symm
            · exact hns hcs2

theorem space_digit_false {c : Char} (hs : isSpacePy c = true) :
    isDigitCh c = false := by
  simp only [isSpacePy, Bool.or_eq_true, beq_iff_eq] at hs
  rcases hs with ((((rfl | rfl) | rfl) | rfl) | rfl) | rfl <;> decide

theorem digit_space_false {c : Char} (hd : isDigitCh c = true) :
    isSpacePy c = false := by
  cases hsp : isSpacePy c with
  | false => rfl
  | true =>
    rw [space_digit_false hsp] at hd
    cases hd

theorem startsCI_of_mapLower {p l r : List Char}
    (h : l.map toLowerCh = p.map toLowerCh) : startsCI p (l ++ r) = true := by
  induction p generalizing l with
  | nil =>
    have hl : l = [] := by
      have hlen := congrArg List.length h
      simpa using hlen
    subst hl
    rfl
  | cons a ps ih =>
    cases l with
    | nil => simp at h
    | cons b bs =>
      simp only [List.map_cons, List.cons.injEq] at h
      simp only [List.cons_append, startsCI, Bool.and_eq_true, beq_iff_eq]
      exact ⟨h.1.symm, ih h.2⟩

theorem mapLower_take_of_startsCI {p s : List Char} (h : startsCI p s = true) :
    (s.take p.length).map toLowerCh = p.map toLowerCh := by
  induction p generalizing s with
  | nil => rfl
  | cons a ps ih =>
    cases s with
    | nil => simp [startsCI] at h
    | cons c cs =>
      simp only [startsCI, Bool.and_eq_true, beq_iff_eq] at h
      simp only [List.length_cons, List.take_succ_cons, List.map_cons]
      exact List.cons_eq_cons.mpr ⟨h.1.symm, ih h.2⟩

theorem dropWhile_all_append {p : Char → Bool} {ws x : List Char}
    (hws : ∀ c ∈ ws, p c = true) : (ws ++ x).dropWhile p = x.dropWhile p := by
  induction ws with
  | nil => rfl
  | cons w ws ih =>
    simp only [List.cons_append, List.dropWhile_cons,
      hws w (List.mem_cons_self _ _), if_true]
    exact ih (fun c hc => hws c (List.mem_cons_of_mem _ hc))

theorem scoreAt_of_occurrence {lab ws ds rest : List Char}
    (hlab : lab.map toLowerCh = scoreLabel.map toLowerCh)
    (hws : ∀ c ∈ ws, isSpacePy c = true) (hd : ds ≠ [])
    (hds : ∀ c ∈ ds, isDigitCh c = true) :
    (scoreAt (lab ++ (ws ++ (ds ++ rest)))).isSome = true := by
  have hlen : lab.length = scoreLabel.length := by
    have := congrArg List.length hlab
    simpa using this
  have h1 : startsCI scoreLabel (lab ++ (ws ++ (ds ++ rest))) = true :=
    startsCI_of_mapLower hlab
  unfold scoreAt
  rw [if_pos h1, ← hlen, List.drop_left, dropWhile_all_append hws]
  cases ds with
  | nil => exact absurd rfl hd
  | cons d ds' =>
    have hdd : isDigitCh d = true := hds d (List.mem_cons_self _ _)
    rw [List.cons_append, List.dropWhile_cons, digit_space_false hdd]
    simp [List.takeWhile_cons, hdd]

theorem findScore_isSome_of_suffix :
    ∀ (pre s : List Char), (scoreAt s).isSome = true →
      (findScore (pre ++ s)).isSome = true := by
  intro pre
  induction pre with
  | nil =>
    intro s h
    cases s with
    | nil =>
      have : scoreAt [] = none := by
        unfold scoreAt
        rw [if_neg]
        rw [startsCI_nil_right]
        · simp
        · decide
      rw [this] at h
      cases h
    | cons c cs =>
      rcases Option.isSome_iff_exists.mp h with ⟨ds, hds⟩
      simp [findScore, hds]
  | cons a pre ih =>
    intro s h
    rw [List.cons_append]
    cases hsc : scoreAt (a :: (pre ++ s)) with
    | some ds => simp [findScore, hsc]
    | none =>
      simp only [findScore, hsc]
      exact ih s h

theorem scoreAt_digits {s ds : List Char} (h : scoreAt s = some ds) :
    ds ≠ [] ∧ ∀ c ∈ ds, isDigitCh c = true := by
  unfold scoreAt at h
  split at h
  · cases htw : ((s.drop scoreLabel.length).dropWhile isSpacePy).takeWhile isDigitCh with
    | nil =>
      rw [htw] at h
      cases h
    | cons d rest =>
      rw [htw] at h
      injection h with h2
      subst h2
      refine ⟨by simp, ?_⟩
      intro c hc
      exact List.mem_takeWhile_imp (htw ▸ hc)
  · cases h

theorem findScore_digits {t : List Char} :
    ∀ {ds : List Char}, findScore t = some ds →
      ds ≠ [] ∧ ∀ c ∈ ds, isDigitCh c = true := by
  induction t with
  | nil =>
    intro ds h
    simp [findScore] at h
  | cons c cs ih =>
    intro ds h
    simp only [findScore] at h
    cases hsc : scoreAt (c :: cs) with
    | some ds' =>
      rw [hsc] at h
      injection h with h2
      subst h2
      exact scoreAt_digits hsc
    | none =>
      rw [hsc] at h
      exact ih h

theorem scoreAt_occurrence {s ds : List Char} (h : scoreAt s = some ds) :
    ∃ lab ws dg rest, s = lab ++ ws ++ dg ++ rest ∧
      lab.map toLowerCh = scoreLabel.map toLowerCh ∧
      (∀ c ∈ ws, isSpacePy c = true) ∧ dg ≠ [] ∧
      (∀ c ∈ dg, isDigitCh c = true) := by
  have hsc : startsCI scoreLabel s = true := by
    by_contra hx
    unfold scoreAt at h
    rw [if_neg hx] at h
    cases h
  refine ⟨s.take scoreLabel.length,
    (s.drop scoreLabel.length).takeWhile isSpacePy,
    ((s.drop scoreLabel.length).dropWhile isSpacePy).takeWhile isDigitCh,
    ((s.drop scoreLabel.length).dropWhile isSpacePy).dropWhile isDigitCh,
    ?_, mapLower_take_of_startsCI hsc, ?_, ?_, ?_⟩
  · rw [List.append_assoc, List.append_assoc,
      List.takeWhile_append_dropWhile, List.takeWhile_append_dropWhile,
      List.take_append_drop]
  · intro c hc
    exact List.mem_takeWhile_imp hc
  · have h2 := h
    unfold scoreAt at h2
    rw [if_pos hsc] at h2
    intro heq
    rw [heq] at h2
    cases h2
  · intro c hc
    exact List.mem_takeWhile_imp hc

theorem findScore_occurrence {t : List Char} :
    ∀ {ds : List Char}, findScore t = some ds → scoreSubstringOccurs t := by
  induction t with
  | nil =>
    intro ds h
    simp [findScore] at h
  | cons c cs ih =>
    intro ds h
    simp only [findScore] at h
    cases hsc : scoreAt (c :: cs) with
    | some ds' =>
      rcases scoreAt_occurrence hsc with ⟨lab, ws, dg, rest, he, h1, h2, h3, h4⟩
      exact ⟨[], lab, ws, dg, rest, by rw [List.nil_append, he], h1, h2, h3, h4⟩
    | none =>
      rw [hsc] at h
      rcases ih h with ⟨pre, lab, ws, dg, rest, he, h1, h2, h3, h4⟩
      exact ⟨c :: pre, lab, ws, dg, rest, by rw [he]; rfl, h1, h2, h3, h4⟩

theorem scoreDisplay_shown_of_some {t ds : List Char}
    (h : findScore t = some ds) :
    scoreDisplay t = ScoreDisplay.shown (digitsVal ds) := by
  rcases findScore_digits h with ⟨h1, h2⟩
  have hcond : (decide (ds.isEmpty = false) && ds.all isDigitCh) = true := by
    rw [Bool.and_eq_true, decide_eq_true_eq, List.all_eq_true]
    exact ⟨by simp [h1], h2⟩
  simp [scoreDisplay, h, pyParseInt, hcond]
  rw [if_pos (show ¬ds = [] ∧ ∀ x ∈ ds, isDigitCh x = true from ⟨h1, h2⟩)]

theorem startsWithL_append (p q : List Char) : startsWithL p (p ++ q) = true := by
  induction p with
  | nil => rfl
  | cons a ps ih => simp [startsWithL, ih]

theorem extractPdf_eq_specPdfTexts (pages : List (Option (List Char))) :
    extractPdf pages = unlines (specPdfTexts pages) := by
  unfold extractPdf
  congr 1
  induction pages with
  | nil => rfl
  | cons p ps ih =>
    cases p with
    | none => simpa [List.filterMap_cons, specPdfTexts] using ih
    | some t =>
      by_cases ht : t = []
      · subst ht
        simpa [List.filterMap_cons, specPdfTexts] using ih
      · simp only [List.filterMap_cons, specPdfTexts, ht, if_neg, ite_false]
        rw [ih]

/-- C1 counterexample: on the response text `"Hello"` (not an API-error
string) the section loop emits nothing at all, so no declared section name
is present as a key and no `"Not Found"` placeholder is inserted - the
claimed completeness invariant fails. -/
theorem C1_counterexample :
    is_api_error_string (("Hello").toList) = false ∧
    buildDisplay (("Hello").toList) = [] ∧
    sections_to_extract ≠ [] := by
  refine ⟨by decide, by decide, by decide⟩

/-- C1 (amended): the keys of the section loop's output form a subsequence
of the declared section-name list, and a section appears only when its
header matched with nonempty trimmed content - rendered italicized when the
content is a placeholder literal and with newlines replaced by `<br>`
otherwise.  A declared section with no header match or empty content is
omitted entirely; the parser never inserts a placeholder itself. -/
theorem C1_keys_subsequence (text : List Char) :
    List.Sublist ((buildDisplay text).map Prod.fst) sections_to_extract ∧
    ∀ n v, (n, v) ∈ buildDisplay text →
      n ∈ sections_to_extract ∧
      ∃ c, extractSection all_delimiters n text = some c ∧ c ≠ [] ∧
        ((isPlaceholder c = true ∧ v = italicWrap c) ∨
         (isPlaceholder c = false ∧ v = replBr c)) := by
  constructor
  · exact buildDisplayAux_keys_sublist text sections_to_extract []
  · intro n v h
    exact mem_buildDisplayAux h

/-- C1 witness: instantiating the amended theorem on a concrete response. -/
theorem C1_witness :
    ∃ c, extractSection all_delimiters (("Skills").toList)
        (("Skills\nPython\n").toList) = some c ∧ c ≠ [] ∧
      ((isPlaceholder c = true ∧ ("Python").toList = italicWrap c) ∨
       (isPlaceholder c = false ∧ ("Python").toList = replBr c)) :=
  (((C1_keys_subsequence (("Skills\nPython\n").toList)).2 (("Skills").toList)
    (("Python").toList)) (by decide)).2

/-- C2 counterexample: on `"Skills\nEducation\nB.Tech"` the code's capture
for `Skills` swallows the immediately following `Education` delimiter line
and the final line (which has no trailing newline), while the claim as
stated says the capture stops before the next delimiter line, yielding
empty content. -/
theorem C2_counterexample :
    extractSection all_delimiters (("Skills").toList)
        (("Skills\nEducation\nB.Tech").toList) =
      some (("Education\nB.Tech").toList) ∧
    claimExtractLines all_delimiters (("Skills").toList)
        (toLines (("Skills\nEducation\nB.Tech").toList)) = some [] := by
  refine ⟨by decide, by decide⟩

/-- C2 (amended): for every declared section name and every text, the
per-section extraction equals the line-level description: find the first
line starting case-insensitively with the name and followed by a newline;
always capture the line immediately after the header (even if it starts
with a delimiter); then capture further lines up to the first line that
starts with any delimiter (the section's own name included) and is itself
followed by a newline, or through the end of the text when no such line
exists; finally trim whitespace.  Each section is matched independently
against the full text. -/
theorem C2_section_extraction (name : List Char)
    (hname : name ∈ sections_to_extract) (t : List Char) :
    extractSection all_delimiters name t =
      specExtractLines all_delimiters name (toLines t) := by
  have hd : ∀ d ∈ all_delimiters, noNl d = true := by decide
  have hn : noNl name = true := by
    have hall : ∀ x ∈ sections_to_extract, noNl x = true := by decide
    exact hall name hname
  have hne : name ≠ [] := by
    have hall : ∀ x ∈ sections_to_extract, x ≠ [] := by decide
    exact hall name hname
  exact extractSection_eq_specLines hn hne hd t

/-- C2 witness: the amended characterization at a concrete name and text. -/
theorem C2_witness :
    (("Skills").toList ∈ sections_to_extract) ∧
    extractSection all_delimiters (("Skills").toList)
        (("foo\nSkills\nA\nB\nEducation\nC\n").toList) =
      specExtractLines all_delimiters (("Skills").toList)
        (toLines (("foo\nSkills\nA\nB\nEducation\nC\n").toList)) :=
  ⟨by decide, C2_section_extraction _ (by decide) _⟩

/-- C3: any exception in the external call makes the requester return the
fixed `"Error during Gemini API call: ..."` string instead of raising, that
string always starts with the error marker, and any result text starting
with the marker short-circuits the display: neither the Score Extractor nor
the Section Parser is invoked on it. -/
theorem C3_api_error_handling (e t : List Char) :
    analyze_resume_with_gemini (Except.error e) =
      ("Error during Gemini API call: ").toList ++ e ∧
    is_api_error_string (analyze_resume_with_gemini (Except.error e)) = true ∧
    (is_api_error_string t = true → renderResult t = DisplayOutcome.apiError) := by
  refine ⟨rfl, ?_, ?_⟩
  · show startsWithL apiErrorMarker
      (("Error during Gemini API call: ").toList ++ e) = true
    have he : ("Error during Gemini API call: ").toList ++ e =
        apiErrorMarker ++ (((": ").toList) ++ e) := by
      rw [← List.append_assoc]
      rfl
    rw [he]
    exact startsWithL_append _ _
  · intro h
    simp [renderResult, h]

/-- C3 witness: a concrete transport error propagates to the error display
and the section table is never built. -/
theorem C3_witness :
    is_api_error_string (analyze_resume_with_gemini
      (Except.error (("boom").toList))) = true ∧
    renderResult (analyze_resume_with_gemini
      (Except.error (("boom").toList))) = DisplayOutcome.apiError :=
  ⟨(C3_api_error_handling (("boom").toList) []).2.1,
   (C3_api_error_handling (("boom").toList)
      (analyze_resume_with_gemini (Except.error (("boom").toList)))).2.2
     ((C3_api_error_handling (("boom").toList) []).2.1)⟩

/-- C4: if the text contains a line matching
`Overall Match Score: <digits>%?` (case-insensitively) the score block
shows an integer score; if the pattern occurs nowhere in the text (the
regex carries no anchors, so this is the precise no-match condition) the
block reports the distinguishable missing-score outcome rather than a
zero default. -/
theorem C4_score_extraction (text : List Char) :
    (lineScoreOccurs text → ∃ n, scoreDisplay text = ScoreDisplay.shown n) ∧
    (¬ scoreSubstringOccurs text → scoreDisplay text = ScoreDisplay.missing) := by
  constructor
  · rintro ⟨pre, lab, ws, ds, pct, post, he, -, hlab, hws, hd, hds, -, -⟩
    have he2 : text = pre ++ (lab ++ (ws ++ (ds ++ (pct ++ post)))) := by
      rw [he]
      simp [List.append_assoc]
    have hsome : (findScore text).isSome = true := by
      rw [he2]
      exact findScore_isSome_of_suffix pre _ (scoreAt_of_occurrence hlab hws hd hds)
    rcases Option.isSome_iff_exists.mp hsome with ⟨ds', hds'⟩
    exact ⟨digitsVal ds', scoreDisplay_shown_of_some hds'⟩
  · intro hno
    cases hf : findScore text with
    | none => simp [scoreDisplay, hf]
    | some ds => exact absurd (findScore_occurrence hf) hno

/-- C4 witness: `"Overall Match Score: 82%"` yields the integer 82. -/
theorem C4_witness :
    lineScoreOccurs (("Overall Match Score: 82%").toList) ∧
    (∃ n, scoreDisplay (("Overall Match Score: 82%").toList) =
      ScoreDisplay.shown n) ∧
    scoreDisplay (("Overall Match Score: 82%").toList) =
      ScoreDisplay.shown 82 := by
  have hocc : lineScoreOccurs (("Overall Match Score: 82%").toList) :=
    ⟨[], ("Overall Match Score:").toList, [' '], ("82").toList, ['%'], [],
      by decide, Or.inl rfl, by decide, by decide, by decide, by decide,
      Or.inr rfl, Or.inl rfl⟩
  exact ⟨hocc, (C4_score_extraction _).1 hocc, by decide⟩

/-- C5: the section loop is a pure function of the response text and the
fixed declared-name list: identical texts always produce identical outputs,
with no other state feeding the computation. -/
theorem C5_parser_deterministic (t₁ t₂ : List Char) (h : t₁ = t₂) :
    buildDisplay t₁ = buildDisplay t₂ ∧
    ∀ name, extractSection all_delimiters name t₁ =
      extractSection all_delimiters name t₂ := by
  subst h
  exact ⟨rfl, fun _ => rfl⟩

/-- C5 witness: determinism at a concrete response text. -/
theorem C5_witness :
    buildDisplay (("Skills\nPython\n").toList) =
      buildDisplay (("Skills\nPython\n").toList) :=
  (C5_parser_deterministic _ _ rfl).1

/-- C6 counterexample: with a previously processed state for
`"resume.pdf"`, removing the upload (so the current document identity,
`none`, differs from the stored one) triggers no reset: the processed flag
and the cached result survive, contradicting the claimed
"exactly when the identity differs" condition. -/
theorem C6_counterexample :
    (updateOnChange
        { processed := true, result := ("r").toList,
          resume_filename := ("resume.pdf").toList,
          last_jd := ("jd").toList }
        none (("jd").toList)).snd = false ∧
    (updateOnChange
        { processed := true, result := ("r").toList,
          resume_filename := ("resume.pdf").toList,
          last_jd := ("jd").toList }
        none (("jd").toList)).fst.processed = true ∧
    (updateOnChange
        { processed := true, result := ("r").toList,
          resume_filename := ("resume.pdf").toList,
          last_jd := ("jd").toList }
        none (("jd").toList)).fst.result = ("r").toList ∧
    (none : Option (List Char)) ≠ some (("resume.pdf").toList) := by
  refine ⟨by decide, by decide, by decide, by decide⟩

/-- C6 (amended): the reset fires exactly when a file is currently uploaded
whose nonempty name differs from the stored filename, or the job
description differs from the stored one; removing the upload never resets.
Moreover an interaction whose inputs equal the stored values leaves the
state unchanged and runs no re-analysis. -/
theorem C6_rerun_triggers (st : AppState) (cur : Option (List Char))
    (jd : List Char) :
    ((updateOnChange st cur jd).snd = true ↔
      ((∃ n, cur = some n ∧ n ≠ [] ∧ n ≠ st.resume_filename) ∨
        jd ≠ st.last_jd)) ∧
    (st.processed = true → (cur = none ∨ cur = some st.resume_filename) →
      jd = st.last_jd →
      (updateOnChange st cur jd).fst = st ∧
      wouldProcess (updateOnChange st cur jd).fst cur jd = false) := by
  constructor
  · cases cur with
    | none =>
      by_cases hj : st.last_jd = jd
      · simp [updateOnChange, hj]
      · simp only [updateOnChange]
        simp [hj, Ne.symm hj]
    | some n =>
      by_cases hn : n = []
      · subst hn
        by_cases hj : st.last_jd = jd
        · simp [updateOnChange, hj]
        · simp only [updateOnChange]
          simp [hj, Ne.symm hj]
      · by_cases hr : st.resume_filename = n
        · by_cases hj : st.last_jd = jd
          · simp [updateOnChange, hn, hr, hj]
          · simp only [updateOnChange]
            simp [hn, hr, hj, Ne.symm hj]
        · simp only [updateOnChange]
          simp [hn, hr, Ne.symm hr, ne_comm]
  · intro hp hcur hjd
    have hbranch : updateOnChange st cur jd = (st, false) := by
      rcases hcur with rfl | rfl
      · simp [updateOnChange, hjd]
      · simp [updateOnChange, hjd]
    rw [hbranch]
    exact ⟨rfl, by simp [wouldProcess, hp]⟩

/-- C6 witness: a changed filename with an unchanged job description does
reset the state. -/
theorem C6_witness :
    (updateOnChange
        { processed := true, result := [],
          resume_filename := ("a.pdf").toList, last_jd := ("jd").toList }
        (some (("b.pdf").toList)) (("jd").toList)).snd = true :=
  (C6_rerun_triggers _ _ _).1.mpr
    (Or.inl ⟨("b.pdf").toList, rfl, by decide, by decide⟩)

/-- C7: the PDF extractor joins, with single newlines and in page order,
exactly the texts of the pages that yielded extractable text; pages with a
missing or empty extraction result contribute nothing (not even a
separator) and raise no error, and a `.pdf` filename routes to this
extractor with no warning. -/
theorem C7_pdf_page_join (pages xs ys : List (Option (List Char)))
    (fname : List Char) (d : Except (List Char) (List Char)) :
    extractPdf pages = unlines (specPdfTexts pages) ∧
    extractPdf (xs ++ none :: ys) = extractPdf (xs ++ ys) ∧
    extractPdf (xs ++ some [] :: ys) = extractPdf (xs ++ ys) ∧
    (endsWithL ((".pdf").toList) fname = true →
      extract_text_from_file fname (Except.ok pages) d =
        (extractPdf pages, false)) := by
  refine ⟨extractPdf_eq_specPdfTexts pages, ?_, ?_, ?_⟩
  · unfold extractPdf
    congr 1
    simp [List.filterMap_append, List.filterMap_cons]
  · unfold extractPdf
    congr 1
    simp [List.filterMap_append, List.filterMap_cons]
  · intro h
    unfold extract_text_from_file
    rw [if_pos h]

/-- C7 witness: a concrete four-page document with one unreadable and one
empty page produces `"a\nb"`. -/
theorem C7_witness :
    extract_text_from_file (("r.pdf").toList)
        (Except.ok [some (("a").toList), none, some [], some (("b").toList)])
        (Except.error []) = ((("a\nb").toList), false) ∧
    extractPdf [some (("a").toList), none, some [], some (("b").toList)] =
      unlines (specPdfTexts
        [some (("a").toList), none, some [], some (("b").toList)]) := by
  constructor
  · rw [(C7_pdf_page_join
      [some (("a").toList), none, some [], some (("b").toList)]
      [] [] (("r.pdf").toList) (Except.error [])).2.2.2 (by decide)]
    decide
  · exact (C7_pdf_page_join
      [some (("a").toList), none, some [], some (("b").toList)]
      [] [] [] (Except.error [])).1

/-- C8: an exception from either third-party extractor (PDF or DOCX) is
caught inside `extract_text_from_file`: the function reports the non-fatal
warning and returns the empty string instead of raising. -/
theorem C8_extraction_exception (fname e : List Char)
    (pdfPages : Except (List Char) (List (Option (List Char))))
    (docxText : Except (List Char) (List Char)) :
    (endsWithL ((".pdf").toList) fname = true →
      extract_text_from_file fname (Except.error e) docxText = ([], true)) ∧
    (endsWithL ((".pdf").toList) fname = false →
      endsWithL ((".docx").toList) fname = true →
      extract_text_from_file fname pdfPages (Except.error e) = ([], true)) := by
  constructor
  · intro h
    unfold extract_text_from_file
    rw [if_pos h]
  · intro h1 h2
    unfold extract_text_from_file
    rw [if_neg (by intro hcontra; rw [h1] at hcontra; exact Bool.false_ne_true hcontra),
      if_pos h2]

/-- C8 witness: concrete failing extractions for both file types. -/
theorem C8_witness :
    extract_text_from_file (("r.pdf").toList)
        (Except.error (("ouch").toList)) (Except.ok []) = ([], true) ∧
    extract_text_from_file (("r.docx").toList) (Except.ok [])
        (Except.error (("ouch").toList)) = ([], true) :=
  ⟨(C8_extraction_exception (("r.pdf").toList) (("ouch").toList)
      (Except.ok []) (Except.ok [])).1 (by decide),
   (C8_extraction_exception (("r.docx").toList) (("ouch").toList)
      (Except.ok []) (Except.ok [])).2 (by decide) (by decide)⟩

/-- C9: whenever the score regex matches, the captured group is a nonempty
run of digit characters, so the integer conversion always succeeds and the
`"Could not parse score"` branch can never execute. -/
theorem C9_parse_warning_unreachable (text ds : List Char) :
    scoreDisplay text ≠ ScoreDisplay.parseFail ds := by
  cases hf : findScore text with
  | none => simp [scoreDisplay, hf]
  | some dg =>
    rw [scoreDisplay_shown_of_some hf]
    intro h
    cases h

/-- C9 witness: the unreachability instantiated at a concrete text. -/
theorem C9_witness :
    scoreDisplay (("Overall Match Score: 7").toList) ≠
      ScoreDisplay.parseFail (("7").toList) :=
  C9_parse_warning_unreachable _ _

/-- C10: when two declared sections (in declared order) capture identical
nonempty non-placeholder trimmed content, the later one is silently dropped
from the output - no row and no placeholder for it - and the first section
capturing that content does appear, with its newlines replaced by
`<br>`. -/
theorem C10_dedup (text : List Char)
    (names₁ names₂ names₃ : List (List Char)) (n₁ n₂ c v : List Char)
    (hdecomp : sections_to_extract = names₁ ++ n₁ :: (names₂ ++ n₂ :: names₃))
    (h₁ : extractSection all_delimiters n₁ text = some c)
    (h₂ : extractSection all_delimiters n₂ text = some c)
    (hc : c ≠ []) (hp : isPlaceholder c = false)
    (hnotin : n₂ ∉ names₁ ++ n₁ :: names₂) :
    (n₂, v) ∉ buildDisplay text ∧
    ((∀ m ∈ names₁, extractSection all_delimiters m text ≠ some c) →
      (n₁, replBr c) ∈ buildDisplay text) := by
  constructor
  · unfold buildDisplay
    rw [hdecomp]
    have hres : names₁ ++ n₁ :: (names₂ ++ n₂ :: names₃) =
        (names₁ ++ n₁ :: names₂) ++ n₂ :: names₃ := by
      simp
    rw [hres]
    exact buildDisplayAux_dup_blocked h₂ hc hp _ names₃ [] hnotin
      (Or.inl ⟨n₁, by simp, h₁⟩) v
  · intro hfirst
    unfold buildDisplay
    rw [hdecomp]
    exact buildDisplayAux_first_mem h₁ hc hp names₁ _ [] hfirst (by simp)

/-- C10 witness: `Skills` and `Education` both capture `"Python"`; only
`Skills` is displayed, `Education` is omitted. -/
theorem C10_witness :
    ((("Education").toList, ("Python").toList) ∉
      buildDisplay (("Skills\nPython\nEducation\nPython\n").toList)) ∧
    ((("Skills").toList, ("Python").toList) ∈
      buildDisplay (("Skills\nPython\nEducation\nPython\n").toList)) := by
  have h := C10_dedup (("Skills\nPython\nEducation\nPython\n").toList)
    [("Contact Info").toList] [("Experience").toList]
    [("Certifications").toList, ("Achievements").toList, ("Others").toList]
    (("Skills").toList) (("Education").toList) (("Python").toList)
    (("Python").toList) (by decide) (by decide) (by decide) (by decide)
    (by decide) (by decide)
  refine ⟨h.1, ?_⟩
  have h2 := h.2 (by decide)
  rw [show replBr (("Python").toList) = ("Python").toList from by decide] at h2
  exact h2
